import Mathlib

/-!
Verification of the course-record normalization pipeline
(`CourseDataCleaner` in `src/scraping/utils/data_cleaner.py`, with the
validation rules of `src/scraping/config.py`).

The Python code is shallowly embedded: dynamically-typed scalar values
become the inductive type `Value`; a course record (a Python dict) becomes
the structure `Record` whose fields are the keys the pipeline reads
(`Option Value`, `none` meaning the key is absent); the mutable
statistics dict becomes the structure `Stats`, threaded explicitly.
Python strings are handled as `List Char`.  Character classes (`\w`,
`\s`, `str.upper`, `str.lower`) are modelled on the ASCII fragment plus
the specific Unicode punctuation the cleaner handles; the scraped data
the pipeline is written for is ASCII after cleaning.
-/

namespace CourseCleaner

/-- A loosely-typed Python scalar value as it may appear in a raw record. -/
inductive Value where
  | VNone : Value
  | VBool : Bool → Value
  | VInt : Int → Value
  | VStr : String → Value
deriving DecidableEq, Repr

open Value

/-- Python truthiness (`bool(v)`) for the scalar values of the model:
`None`, `False`, `0` and `""` are falsy. -/
def pyFalsy : Value → Bool
  | VNone => true
  | VBool b => !b
  | VInt n => n == 0
  | VStr s => s == ""

/-- Python `str(v)`. -/
def pyStr : Value → String
  | VNone => "None"
  | VBool b => if b then "True" else "False"
  | VInt n => toString n
  | VStr s => s

/-- Python whitespace (the set matched by `\s` in `re` on `str`, also the
set stripped by `str.strip()`): ASCII whitespace, the C1 separators, and
the Unicode space characters. -/
def isPySpace (c : Char) : Bool :=
  (9 ≤ c.val && c.val ≤ 13) || (28 ≤ c.val && c.val ≤ 31) || c.val == 32 ||
  c.val == 133 || c.val == 160 || c.val == 0x1680 ||
  (0x2000 ≤ c.val && c.val ≤ 0x200A) || c.val == 0x2028 || c.val == 0x2029 ||
  c.val == 0x202F || c.val == 0x205F || c.val == 0x3000

/-- Python `\w` (word character), restricted to the ASCII fragment of the
model: letters, digits, underscore. -/
def isPyWord (c : Char) : Bool :=
  c.isAlphanum || c == '_'

/-- `List.dropWhile isPySpace` and its mirror image: Python `str.strip()`. -/
def dropTrailingSpace (l : List Char) : List Char :=
  (l.reverse.dropWhile isPySpace).reverse

/-- Python `str.strip()` on the character list. -/
def stripChars (l : List Char) : List Char :=
  dropTrailingSpace (l.dropWhile isPySpace)

/-- `re.sub(r'\s+', ' ', text)`: every maximal run of whitespace becomes a
single ASCII space.  The boolean flag records whether the scanner is
inside a run whose replacement space has already been emitted. -/
def collapseWsAux : Bool → List Char → List Char
  | _, [] => []
  | inRun, c :: cs =>
    if isPySpace c then
      if inRun then collapseWsAux true cs
      else ' ' :: collapseWsAux true cs
    else c :: collapseWsAux false cs

def collapseWs (l : List Char) : List Char := collapseWsAux false l

/-- The six single-character `str.replace` calls of `clean_text_field`
("fix encoding issues"): non-breaking space, curly quotes, en/em dash.
The sources are pairwise distinct and no target is a later source, so the
sequence of replaces is a single character map. -/
def fixEnc (c : Char) : Char :=
  if c = '\u00A0' then ' '
  else if c = '\u2019' then '\''
  else if c = '\u201C' then '\"'
  else if c = '\u201D' then '\"'
  else if c = '\u2013' then '-'
  else if c = '\u2014' then '-'
  else c

/-- The character class kept by `re.sub(r'[^\w\s\-.,()&/]', '', text)`. -/
def allowedChar (c : Char) : Bool :=
  isPyWord c || isPySpace c ||
  c == '-' || c == '.' || c == ',' || c == '(' || c == ')' || c == '&' || c == '/'

/-- The body of `clean_text_field` after the falsy guard: strip, collapse
whitespace runs, fix encoding artifacts, drop disallowed characters,
strip again. -/
def cleanCore (l : List Char) : List Char :=
  stripChars (((collapseWs (stripChars l)).map fixEnc).filter allowedChar)

/-- `CourseDataCleaner.clean_text_field` (src/scraping/utils/data_cleaner.py:76). -/
def clean_text_field (v : Value) : String :=
  if pyFalsy v then "" else String.mk (cleanCore (pyStr v).toList)

/-- The spec's `cleanText` is `clean_text_field` on a raw text string. -/
def cleanText (s : String) : String := clean_text_field (VStr s)

/-- ASCII uppercase letter, the class `[A-Z]` of the CAO-code pattern. -/
def isUpperAZ (c : Char) : Bool := 'A' ≤ c && c ≤ 'Z'

/-- ASCII digit, the class `\d` of the CAO-code pattern (restricted to
ASCII as in the rest of the model). -/
def isDigitC (c : Char) : Bool := '0' ≤ c && c ≤ '9'

/-- One backtracking attempt of `re.search(r'([A-Z]{2,4})(\d{3,4})', _)`
at the head of `l`: exactly `n` uppercase letters followed by exactly `m`
digits. -/
def tryNM (n m : Nat) (l : List Char) : Option (List Char) :=
  let a := l.take n
  let b := (l.drop n).take m
  if a.length = n ∧ a.all isUpperAZ ∧ b.length = m ∧ b.all isDigitC then
    some (a ++ b)
  else none

/-- The quantifier combinations in the order the regex engine tries them
(both groups greedy, the first backtracks last). -/
def caoPairs : List (Nat × Nat) := [(4, 4), (4, 3), (3, 4), (3, 3), (2, 4), (2, 3)]

def tryPairs : List (Nat × Nat) → List Char → Option (List Char)
  | [], _ => none
  | (n, m) :: ps, l =>
    match tryNM n m l with
    | some r => some r
    | none => tryPairs ps l

/-- `re.search(r'([A-Z]{2,4})(\d{3,4})', _)`: leftmost match, greedy
quantifiers. -/
def searchCao : List Char → Option (List Char)
  | [] => none
  | c :: cs =>
    match tryPairs caoPairs (c :: cs) with
    | some r => some r
    | none => searchCao cs

/-- `CourseDataCleaner.standardize_cao_code` (src/scraping/utils/data_cleaner.py:99):
falsy input gives `""`; else strip + uppercase, return the regex match
(the two groups concatenated), and failing that strip all characters
outside `[A-Z0-9]`. -/
def standardize_cao_code (v : Value) : String :=
  if pyFalsy v then ""
  else
    let code := (stripChars (pyStr v).toList).map Char.toUpper
    match searchCao code with
    | some r => String.mk r
    | none =>
      if code.isEmpty then ""
      else String.mk (code.filter (fun c => isUpperAZ c || isDigitC c))

/-- The property "contains a 2-4-letter run immediately followed by a
3-4-digit run", written as a plain decomposition, independently of the
regex scanner. -/
def HasCaoSub (l : List Char) : Prop :=
  ∃ p a b q, l = p ++ a ++ b ++ q ∧
    2 ≤ a.length ∧ a.length ≤ 4 ∧ a.all isUpperAZ = true ∧
    3 ≤ b.length ∧ b.length ≤ 4 ∧ b.all isDigitC = true

/-- The uppercased, stripped form `standardize_cao_code` searches in. -/
def upperStrip (s : String) : List Char := (stripChars s.toList).map Char.toUpper

/-- Python `int(_)` on a decimal string: surrounding whitespace and one
optional sign are accepted; otherwise every character must be an ASCII
digit.  (Python additionally accepts underscores between digits and
non-ASCII digits; no claim depends on those.) -/
def digitsToNat (l : List Char) : Nat :=
  l.foldl (fun acc c => acc * 10 + (c.val.toNat - '0'.val.toNat)) 0

def parseDigits (l : List Char) : Option Nat :=
  if l.isEmpty then none
  else if l.all isDigitC then some (digitsToNat l) else none

def pyIntOfString (s : String) : Option Int :=
  match stripChars s.toList with
  | '+' :: ds => (parseDigits ds).map Int.ofNat
  | '-' :: ds => (parseDigits ds).map (fun n => -(n : Int))
  | ds => (parseDigits ds).map Int.ofNat

/-- Python `int(v)` for the scalar values of the model; `none` is the
`ValueError`/`TypeError` the cleaners catch. -/
def pyToInt : Value → Option Int
  | VNone => none
  | VBool b => some (if b then 1 else 0)
  | VInt n => some n
  | VStr s => pyIntOfString s

/-- `VALIDATION_RULES["valid_nfq_levels"]` (src/scraping/config.py:58). -/
def validNfqLevels : List Int := [5, 6, 7, 8, 9, 10]

/-- `VALIDATION_RULES["required_fields"]` (src/scraping/config.py:56). -/
def requiredFields : List String := ["name", "nfq_level"]

/-- `VALIDATION_RULES["max_course_name_length"]` and
`"min_course_name_length"` (src/scraping/config.py:59-60). -/
def maxCourseNameLength : Nat := 200

def minCourseNameLength : Nat := 3

/-- `CourseDataCleaner.clean_nfq_level` (src/scraping/utils/data_cleaner.py:114). -/
def clean_nfq_level (v : Value) : Int :=
  if pyFalsy v then 8
  else
    match pyToInt v with
    | none => 8
    | some n => if validNfqLevels.contains n then n else 8

/-- `CourseDataCleaner.clean_points` (src/scraping/utils/data_cleaner.py:130). -/
def clean_points (v : Value) : Int :=
  if pyFalsy v then 0
  else
    match pyToInt v with
    | none => 0
    | some n => if 0 ≤ n ∧ n ≤ 625 then n else 0

/-- `CourseDataCleaner.clean_college_id` (src/scraping/utils/data_cleaner.py:147). -/
def clean_college_id (v : Value) : Int :=
  if pyFalsy v then 1
  else
    match pyToInt v with
    | none => 1
    | some n => if n > 0 then n else 1

/-- A course record: the keys of the raw dict that the pipeline reads.
`none` models an absent key.  Keys the pipeline never touches are passed
through unchanged in Python and are omitted here. -/
structure Record where
  name : Option Value := none
  description : Option Value := none
  duration : Option Value := none
  tags : Option Value := none
  entry_requirements : Option Value := none
  career_info : Option Value := none
  cao_code : Option Value := none
  nfq_level : Option Value := none
  points : Option Value := none
  college_id : Option Value := none
  keywords : Option Value := none
deriving DecidableEq, Repr

/-- `course[k]` for the keys the pipeline uses. -/
def getField (c : Record) : String → Option Value
  | "name" => c.name
  | "description" => c.description
  | "duration" => c.duration
  | "tags" => c.tags
  | "entry_requirements" => c.entry_requirements
  | "career_info" => c.career_info
  | "cao_code" => c.cao_code
  | "nfq_level" => c.nfq_level
  | "points" => c.points
  | "college_id" => c.college_id
  | "keywords" => c.keywords
  | _ => none

/-- `course.get(k, '')` followed by use as a string.  A present
non-string value would raise (`len`/`.lower()` on an int) in the Python
paths that use this; the pipeline only reaches them with cleaned string
values, and the model returns the value's text only when it is a string. -/
def getStr (v : Option Value) : String :=
  match v with
  | some (VStr s) => s
  | _ => ""

/-- `CourseDataCleaner.clean_single_course` (src/scraping/utils/data_cleaner.py:50):
clean the six text fields, standardize the CAO code, coerce the three
numeric fields — each only when the key is present. -/
def clean_single_course (c : Record) : Record :=
  { c with
    name := c.name.map (fun v => VStr (clean_text_field v))
    description := c.description.map (fun v => VStr (clean_text_field v))
    duration := c.duration.map (fun v => VStr (clean_text_field v))
    tags := c.tags.map (fun v => VStr (clean_text_field v))
    entry_requirements := c.entry_requirements.map (fun v => VStr (clean_text_field v))
    career_info := c.career_info.map (fun v => VStr (clean_text_field v))
    cao_code := c.cao_code.map (fun v => VStr (standardize_cao_code v))
    nfq_level := c.nfq_level.map (fun v => VInt (clean_nfq_level v))
    points := c.points.map (fun v => VInt (clean_points v))
    college_id := c.college_id.map (fun v => VInt (clean_college_id v)) }

/-- Python `needle in hay` on strings (character lists). -/
def strContains (hay needle : List Char) : Bool :=
  match hay with
  | [] => needle.isEmpty
  | _ :: t => needle.isPrefixOf hay || strContains t needle

def containsSub (hay needle : String) : Bool :=
  strContains hay.toList needle.toList

/-- Python `str.lower()` (ASCII). -/
def lowerStr (s : String) : String := String.mk (s.toList.map Char.toLower)

/-- The denylist of `validate_course`
(src/scraping/utils/data_cleaner.py:187). -/
def invalidNames : List String :=
  ["about us", "contact us", "help", "privacy", "cookie", "accessibility", "terms"]

def containsDenylisted (name : String) : Bool :=
  invalidNames.any (fun bad => containsSub (lowerStr name) bad)

/-- Python `v in [5, 6, 7, 8, 9, 10]` for the raw value
`course.get('nfq_level')` (`==` between an int and a non-number is
`False`; `True == 1` holds but 1 is not in the list). -/
def valueInNfqLevels (v : Value) : Bool :=
  match v with
  | VInt n => validNfqLevels.contains n
  | VBool b => validNfqLevels.contains (if b then 1 else 0)
  | _ => false

/-- The `f"Invalid NFQ level: {x}"` check of `validate_course`
(src/scraping/utils/data_cleaner.py:191-194), as the list of errors it
contributes. -/
def nfqErrors (c : Record) : List String :=
  let v := c.nfq_level.getD VNone
  if valueInNfqLevels v then [] else ["Invalid NFQ level: " ++ pyStr v]

/-- The full error list `validate_course` accumulates for one record
(src/scraping/utils/data_cleaner.py:161-194).  The short-description
branch only logs and contributes no error. -/
def course_errors (c : Record) : List String :=
  let reqErrs := requiredFields.filterMap (fun f =>
    match getField c f with
    | none => some ("Missing required field: " ++ f)
    | some v => if pyFalsy v then some ("Missing required field: " ++ f) else none)
  let name := getStr c.name
  let longErrs :=
    if name ≠ "" ∧ name.length > maxCourseNameLength then
      ["Course name too long: " ++ toString name.length ++ " chars"]
    else []
  let shortErrs :=
    if name = "" ∨ name.length < minCourseNameLength then
      ["Course name too short: " ++ toString name.length ++ " chars"]
    else []
  let denyErrs :=
    if name ≠ "" ∧ containsDenylisted name then ["Not a course entry (system page)"] else []
  reqErrs ++ longErrs ++ shortErrs ++ denyErrs ++ nfqErrors c

/-- The truncated-name key `course.get('name', 'Unknown')[:50]` under
which rejection reasons are stored. -/
def truncName (c : Record) : String :=
  match c.name with
  | none => String.mk "Unknown".toList
  | some (VStr s) => String.mk (s.toList.take 50)
  | some _ => ""

/-- The per-batch statistics dict of `CourseDataCleaner.__init__`
(src/scraping/utils/data_cleaner.py:17-23); `validation_errors` is an
insertion-ordered mapping from truncated name to error list. -/
structure Stats where
  total_records : Nat := 0
  valid_records : Nat := 0
  duplicates_removed : Nat := 0
  validation_errors : List (String × List String) := []
deriving DecidableEq, Repr

/-- Python dict assignment `d[k] = v`: replace in place if the key
exists, else append. -/
def setKey : List (String × List String) → String → List String → List (String × List String)
  | [], k, v => [(k, v)]
  | (k', v') :: rest, k, v =>
    if k' = k then (k', v) :: rest else (k', v') :: setKey rest k v

/-- `CourseDataCleaner.validate_course` (src/scraping/utils/data_cleaner.py:161):
returns whether the record passes, and records the error list under the
truncated name when it does not. -/
def validate_course (st : Stats) (c : Record) : Bool × Stats :=
  let errs := course_errors c
  if errs.isEmpty then (true, st)
  else
    (false,
      { st with validation_errors := setKey st.validation_errors (truncName c) errs })

/-- The deduplication key of `remove_duplicates`
(src/scraping/utils/data_cleaner.py:210-216): lowercased stripped name,
plus `"|" + cao_code` when the stripped CAO code is non-empty. -/
def dedupKey (c : Record) : String :=
  let name := String.mk (stripChars (lowerStr (getStr c.name)).toList)
  let cao := String.mk (stripChars (getStr c.cao_code).toList)
  if cao ≠ "" then name ++ "|" ++ cao else name

/-- The loop of `remove_duplicates`: emit a record only when its key is
non-empty ("truthy") and unseen; every other record counts as a
duplicate. -/
def removeDupAux (seen : List String) : List Record → List Record × Nat
  | [] => ([], 0)
  | c :: cs =>
    if dedupKey c ≠ "" ∧ dedupKey c ∉ seen then
      let r := removeDupAux (dedupKey c :: seen) cs
      (c :: r.1, r.2)
    else
      let r := removeDupAux seen cs
      (r.1, r.2 + 1)

/-- `CourseDataCleaner.remove_duplicates` (src/scraping/utils/data_cleaner.py:204):
first component the unique courses in first-seen order, second the
duplicate count. -/
def remove_duplicates (l : List Record) : List Record × Nat :=
  removeDupAux [] l

/-- `re.search(r'\b([A-Z]{2,4}\d{3,4})\b', _)` used by
`extract_cao_code_from_name`: like `searchCao` but requiring word
boundaries on both sides.  The scanner carries whether the previous
character was a word character. -/
def tryNMB (n m : Nat) (l : List Char) : Option (List Char) :=
  match tryNM n m l with
  | none => none
  | some r =>
    match (l.drop (n + m)).head? with
    | none => some r
    | some c => if isPyWord c then none else some r

def tryPairsB : List (Nat × Nat) → List Char → Option (List Char)
  | [], _ => none
  | (n, m) :: ps, l =>
    match tryNMB n m l with
    | some r => some r
    | none => tryPairsB ps l

def searchCaoWordAux : Bool → List Char → Option (List Char)
  | _, [] => none
  | prevWord, c :: cs =>
    if prevWord then searchCaoWordAux (isPyWord c) cs
    else
      match tryPairsB caoPairs (c :: cs) with
      | some r => some r
      | none => searchCaoWordAux (isPyWord c) cs

/-- `CourseDataCleaner.extract_cao_code_from_name`
(src/scraping/utils/data_cleaner.py:249). -/
def extract_cao_code_from_name (name : String) : String :=
  if name = "" then ""
  else
    match searchCaoWordAux false (name.toList.map Char.toUpper) with
    | some r => String.mk r
    | none => ""

/-- The five keyword category lists of `improve_tags`
(src/scraping/utils/data_cleaner.py:270-291). -/
def stemKeywords : List String :=
  ["engineer", "computer", "science", "technology", "math", "physics",
   "chemistry", "biology", "data"]

def businessKeywords : List String :=
  ["business", "management", "accounting", "finance", "marketing", "economics"]

def artsKeywords : List String :=
  ["art", "design", "music", "creative", "media", "film", "drama", "literature"]

def healthKeywords : List String :=
  ["health", "medicine", "nursing", "therapy", "medical", "care"]

def educationKeywords : List String :=
  ["education", "teaching", "early learning", "childcare"]

def anyKeyword (kws : List String) (content : String) : Bool :=
  kws.any (fun k => containsSub content k)

/-- The lowercased `f"{name} {description}"` that `improve_tags` scans. -/
def tagContent (c : Record) : String :=
  lowerStr (getStr c.name) ++ " " ++ lowerStr (getStr c.description)

/-- Python string `<`: lexicographic comparison by code point. -/
def strLtB : List Char → List Char → Bool
  | [], [] => false
  | [], _ :: _ => true
  | _ :: _, [] => false
  | a :: as, b :: bs =>
    if a.val < b.val then true
    else if b.val < a.val then false
    else strLtB as bs

def strLeB (a b : String) : Bool := !(strLtB b.toList a.toList)

/-- Python `sorted` on strings: ascending stable insertion sort. -/
def insertSorted (x : String) : List String → List String
  | [] => [x]
  | y :: ys => if strLeB x y then x :: y :: ys else y :: insertSorted x ys

def sortStrings : List String → List String
  | [] => []
  | x :: xs => insertSorted x (sortStrings xs)

/-- `', '.join(sorted(tags))` for a set of tags collected as a list. -/
def joinSorted (tags : List String) : String :=
  String.intercalate ", " (sortStrings tags)

/-- `CourseDataCleaner.improve_tags` (src/scraping/utils/data_cleaner.py:261):
membership in the five categories, `"General"` when none matches, sorted
comma-joined names otherwise. -/
def improve_tags (c : Record) : String :=
  let content := tagContent c
  let tags :=
    (if anyKeyword stemKeywords content then ["STEM"] else []) ++
    (if anyKeyword businessKeywords content then ["Business"] else []) ++
    (if anyKeyword artsKeywords content then ["Arts"] else []) ++
    (if anyKeyword healthKeywords content then ["Health"] else []) ++
    (if anyKeyword educationKeywords content then ["Education"] else [])
  let tags := if tags.isEmpty then ["General"] else tags
  joinSorted tags

/-- The category table in the (alphabetical) order `sorted` produces, for
stating what `improve_tags` computes. -/
def categoriesTable : List (String × List String) :=
  [("Arts", artsKeywords), ("Business", businessKeywords),
   ("Education", educationKeywords), ("Health", healthKeywords),
   ("STEM", stemKeywords)]

/-- The categories a record matches, read off `categoriesTable`. -/
def matchedCategories (c : Record) : List String :=
  (categoriesTable.filter (fun p => anyKeyword p.2 (tagContent c))).map Prod.fst

/-- First maximal digit run of the string, as in
`re.search(r'(\d+)', _)` of `standardize_duration`. -/
def firstDigitRun : List Char → Option (List Char)
  | [] => none
  | c :: cs =>
    if isDigitC c then some (c :: cs.takeWhile isDigitC) else firstDigitRun cs

/-- Python `str.title()` (ASCII): a letter after a non-letter is
uppercased, a letter after a letter is lowercased. -/
def pyTitleAux : Bool → List Char → List Char
  | _, [] => []
  | prevAlpha, c :: cs =>
    (if c.isAlpha then (if prevAlpha then c.toLower else c.toUpper) else c) ::
      pyTitleAux c.isAlpha cs

def pyTitle (s : String) : String := String.mk (pyTitleAux false s.toList)

/-- One `if '<unit>' in duration: ... re.search(r'(\d+)' ...)` branch of
`standardize_duration`. -/
def durationUnit (d : String) (unit label : String) : Option String :=
  if containsSub d unit then
    (firstDigitRun d.toList).map (fun ds =>
      let n := digitsToNat ds
      toString n ++ " " ++ label ++ (if n > 1 then "s" else ""))
  else none

/-- `CourseDataCleaner.standardize_duration` (src/scraping/utils/data_cleaner.py:300). -/
def standardize_duration (s : String) : String :=
  if s = "" then ""
  else
    let d := String.mk (stripChars (lowerStr s).toList)
    match durationUnit d "year" "Year" with
    | some r => r
    | none =>
      match durationUnit d "month" "Month" with
      | some r => r
      | none =>
        match durationUnit d "week" "Week" with
        | some r => r
        | none => pyTitle d

/-- `re.findall(r'\w+', _)`: the maximal word-character runs.  The
accumulator holds the current run reversed. -/
def wordTokensAux : List Char → List Char → List (List Char)
  | cur, [] => if cur.isEmpty then [] else [cur.reverse]
  | cur, c :: cs =>
    if isPyWord c then wordTokensAux (c :: cur) cs
    else if cur.isEmpty then wordTokensAux [] cs
    else cur.reverse :: wordTokensAux [] cs

def wordTokens (s : String) : List String :=
  (wordTokensAux [] s.toList).map String.mk

/-- Python `str.split(',')`. -/
def splitCommaAux : List Char → List Char → List (List Char)
  | cur, [] => [cur.reverse]
  | cur, c :: cs =>
    if c = ',' then cur.reverse :: splitCommaAux [] cs
    else splitCommaAux (c :: cur) cs

def splitComma (s : String) : List String :=
  (splitCommaAux [] s.toList).map String.mk

/-- The stop-word set of `generate_keywords`
(src/scraping/utils/data_cleaner.py:348). -/
def stopWords : List String :=
  ["the", "and", "for", "are", "with", "this", "that", "course", "programme", "program"]

/-- `CourseDataCleaner.generate_keywords` (src/scraping/utils/data_cleaner.py:328):
a set of lowercased words from the name (length > 2), the description
(length > 3) and the comma-split tags, minus stop words, sorted and
comma-joined. -/
def generate_keywords (c : Record) : String :=
  let nameWords :=
    if getStr c.name ≠ "" then
      ((wordTokens (getStr c.name)).filter (fun w => w.length > 2)).map lowerStr
    else []
  let descWords :=
    if getStr c.description ≠ "" then
      ((wordTokens (getStr c.description)).filter (fun w => w.length > 3)).map lowerStr
    else []
  let tagWords :=
    if getStr c.tags ≠ "" then (splitComma (getStr c.tags)).map lowerStr else []
  let kws := (nameWords ++ descWords ++ tagWords).filter (fun w => !stopWords.contains w)
  String.intercalate ", " (sortStrings kws.dedup)

/-- `CourseDataCleaner.enhance_course_data` (src/scraping/utils/data_cleaner.py:230):
backfill a falsy CAO code from the name, improve the tags, standardize
the duration, add the keyword string. -/
def enhance_course_data (c : Record) : Record :=
  let c1 :=
    if pyFalsy (c.cao_code.getD VNone) then
      { c with cao_code := some (VStr (extract_cao_code_from_name (getStr c.name))) }
    else c
  let c2 := { c1 with tags := some (VStr (improve_tags c1)) }
  let c3 := { c2 with duration := some (VStr (standardize_duration (getStr c2.duration))) }
  { c3 with keywords := some (VStr (generate_keywords c3)) }

/-- The validation filter of `clean_course_data` step 2: Python's list
comprehension evaluates `validate_course` left to right, threading the
statistics. -/
def validateAll (st : Stats) : List Record → List Record × Stats
  | [] => ([], st)
  | c :: cs =>
    let r1 := validate_course st c
    let rest := validateAll r1.2 cs
    (if r1.1 then c :: rest.1 else rest.1, rest.2)

/-- `CourseDataCleaner.log_validation_stats` (src/scraping/utils/data_cleaner.py:353):
the success-rate f-string divides `valid_records` by `total_records`,
raising `ZeroDivisionError` when `total_records` is zero; otherwise it
only logs. -/
def log_validation_stats (st : Stats) : Except String Unit :=
  if st.total_records = 0 then Except.error "ZeroDivisionError: division by zero"
  else Except.ok ()

/-- `CourseDataCleaner.clean_course_data` (src/scraping/utils/data_cleaner.py:25):
clean each record, filter by validation, deduplicate, enhance, then log
the statistics (which raises on an empty batch). -/
def clean_course_data (courses : List Record) : Except String (List Record × Stats) :=
  let st0 : Stats := { total_records := courses.length }
  let cleaned := courses.map clean_single_course
  let v := validateAll st0 cleaned
  let u := remove_duplicates v.1
  let st2 := { v.2 with duplicates_removed := u.2 }
  let enhanced := u.1.map enhance_course_data
  let st3 := { st2 with valid_records := enhanced.length }
  match log_validation_stats st3 with
  | Except.error e => Except.error e
  | Except.ok _ => Except.ok (enhanced, st3)

/-- No two adjacent whitespace characters. -/
abbrev NoTwoSpaces (l : List Char) : Prop :=
  l.Chain' (fun a b => isPySpace a = false ∨ isPySpace b = false)

/-- The invariant characters of cleaned text: allowed, and the only
whitespace is the ASCII space. -/
def CleanShape (l : List Char) : Prop :=
  (∀ c ∈ l, allowedChar c = true) ∧ (∀ c ∈ l, isPySpace c = true → c = ' ')

/-! ### Lemmas: stripping and whitespace collapsing -/

theorem dropWhile_head_false {p : Char → Bool} {l : List Char} {c : Char}
    (h : (l.dropWhile p).head? = some c) : p c = false := by
  induction l with
  | nil => simp [List.dropWhile] at h
  | cons a t ih =>
    rw [List.dropWhile_cons] at h
    by_cases hp : p a = true
    · rw [if_pos hp] at h; exact ih h
    · rw [if_neg hp] at h
      simp only [List.head?_cons, Option.some.injEq] at h
      subst h
      simpa using hp

theorem dropWhile_eq_self_of_head {p : Char → Bool} {l : List Char}
    (h : ∀ c, l.head? = some c → p c = false) : l.dropWhile p = l := by
  cases l with
  | nil => rfl
  | cons a t => rw [List.dropWhile_cons, if_neg (by simp [h a rfl])]

theorem dropWhile_idem {p : Char → Bool} (l : List Char) :
    (l.dropWhile p).dropWhile p = l.dropWhile p :=
  dropWhile_eq_self_of_head (fun _ hc => dropWhile_head_false hc)

theorem dropTrailingSpace_prefixOf (l : List Char) : dropTrailingSpace l <+: l := by
  have h : (dropTrailingSpace l).reverse <:+ l.reverse := by
    simpa [dropTrailingSpace] using List.dropWhile_suffix (l := l.reverse) isPySpace
  exact List.reverse_suffix.mp h

theorem stripChars_infixOf (l : List Char) : stripChars l <:+: l :=
  (dropTrailingSpace_prefixOf _).isInfix.trans (List.dropWhile_suffix _).isInfix

theorem mem_of_mem_stripChars {l : List Char} {c : Char} (h : c ∈ stripChars l) : c ∈ l :=
  (stripChars_infixOf l).sublist.subset h

theorem head?_of_prefixOf {l m : List Char} {c : Char} (hp : l <+: m)
    (h : l.head? = some c) : m.head? = some c := by
  obtain ⟨t, rfl⟩ := hp
  cases l with
  | nil => simp at h
  | cons a t' => simpa using h

theorem stripChars_idem (l : List Char) : stripChars (stripChars l) = stripChars l := by
  have hstep1 : (stripChars l).dropWhile isPySpace = stripChars l := by
    apply dropWhile_eq_self_of_head
    intro c hc
    exact dropWhile_head_false (head?_of_prefixOf (dropTrailingSpace_prefixOf _) hc)
  have hstep2 : ∀ m : List Char, dropTrailingSpace (dropTrailingSpace m) = dropTrailingSpace m := by
    intro m
    simp [dropTrailingSpace, List.reverse_reverse, dropWhile_idem]
  show dropTrailingSpace ((stripChars l).dropWhile isPySpace) = stripChars l
  rw [hstep1]
  exact hstep2 _

theorem collapseWsAux_cons_space_true {a : Char} {t : List Char} (h : isPySpace a = true) :
    collapseWsAux true (a :: t) = collapseWsAux true t := by
  simp [collapseWsAux, h]

theorem collapseWsAux_cons_space_false {a : Char} {t : List Char} (h : isPySpace a = true) :
    collapseWsAux false (a :: t) = ' ' :: collapseWsAux true t := by
  simp [collapseWsAux, h]

theorem collapseWsAux_cons_nonspace {a : Char} {t : List Char} {b : Bool}
    (h : isPySpace a = false) :
    collapseWsAux b (a :: t) = a :: collapseWsAux false t := by
  simp [collapseWsAux, h]

theorem mem_collapseWsAux {c : Char} {b : Bool} {l : List Char}
    (h : c ∈ collapseWsAux b l) : c = ' ' ∨ (c ∈ l ∧ isPySpace c = false) := by
  induction l generalizing b with
  | nil => simp [collapseWsAux] at h
  | cons a t ih =>
    by_cases hsp : isPySpace a = true
    · cases b with
      | true =>
        rw [collapseWsAux_cons_space_true hsp] at h
        rcases ih h with h1 | ⟨h2, h3⟩
        · exact Or.inl h1
        · exact Or.inr ⟨List.mem_cons_of_mem _ h2, h3⟩
      | false =>
        rw [collapseWsAux_cons_space_false hsp] at h
        rcases List.mem_cons.mp h with h1 | h2
        · exact Or.inl h1
        · rcases ih h2 with h1 | ⟨h3, h4⟩
          · exact Or.inl h1
          · exact Or.inr ⟨List.mem_cons_of_mem _ h3, h4⟩
    · have hsp' : isPySpace a = false := by simpa using hsp
      rw [collapseWsAux_cons_nonspace hsp'] at h
      rcases List.mem_cons.mp h with h1 | h2
      · subst h1; exact Or.inr ⟨List.mem_cons_self _ _, hsp'⟩
      · rcases ih h2 with h1 | ⟨h3, h4⟩
        · exact Or.inl h1
        · exact Or.inr ⟨List.mem_cons_of_mem _ h3, h4⟩

theorem collapseWsAux_true_head {l : List Char} {c : Char}
    (h : (collapseWsAux true l).head? = some c) : isPySpace c = false := by
  induction l with
  | nil => simp [collapseWsAux] at h
  | cons a t ih =>
    by_cases hsp : isPySpace a = true
    · rw [collapseWsAux_cons_space_true hsp] at h; exact ih h
    · have hsp' : isPySpace a = false := by simpa using hsp
      rw [collapseWsAux_cons_nonspace hsp'] at h
      simp only [List.head?_cons, Option.some.injEq] at h
      subst h; exact hsp'

theorem collapseWsAux_chain (b : Bool) (l : List Char) : NoTwoSpaces (collapseWsAux b l) := by
  induction l generalizing b with
  | nil => simp [collapseWsAux]
  | cons a t ih =>
    by_cases hsp : isPySpace a = true
    · cases b with
      | true => rw [collapseWsAux_cons_space_true hsp]; exact ih true
      | false =>
        rw [collapseWsAux_cons_space_false hsp]
        exact List.chain'_cons'.mpr
          ⟨fun y hy => Or.inr (collapseWsAux_true_head (Option.mem_def.mp hy)), ih true⟩
    · have hsp' : isPySpace a = false := by simpa using hsp
      rw [collapseWsAux_cons_nonspace hsp']
      exact List.chain'_cons'.mpr ⟨fun y _ => Or.inl hsp', ih false⟩

theorem collapseWsAux_eq_self {l : List Char}
    (hsp : ∀ c ∈ l, isPySpace c = true → c = ' ') (hch : NoTwoSpaces l) :
    collapseWsAux false l = l ∧
      ((∀ c, l.head? = some c → isPySpace c = false) → collapseWsAux true l = l) := by
  induction l with
  | nil => exact ⟨rfl, fun _ => rfl⟩
  | cons a t ih =>
    have hspt : ∀ c ∈ t, isPySpace c = true → c = ' ' :=
      fun c hc => hsp c (List.mem_cons_of_mem _ hc)
    have iht := ih hspt hch.tail
    by_cases ha : isPySpace a = true
    · have ha' : a = ' ' := hsp a (List.mem_cons_self _ _) ha
      constructor
      · rw [collapseWsAux_cons_space_false ha]
        have hhead : ∀ c, t.head? = some c → isPySpace c = false := by
          intro c hc
          rcases (List.chain'_cons'.mp hch).1 c (Option.mem_def.mpr hc) with h1 | h2
          · rw [h1] at ha; cases ha
          · exact h2
        rw [iht.2 hhead, ha']
      · intro hh
        rw [hh a rfl] at ha; cases ha
    · have ha' : isPySpace a = false := by simpa using ha
      constructor
      · rw [collapseWsAux_cons_nonspace ha', iht.1]
      · intro _
        rw [collapseWsAux_cons_nonspace ha', iht.1]

/-! ### Lemmas: the shape of cleaned text -/

theorem fixEnc_space {d : Char} (hd : isPySpace d = false)
    (h : isPySpace (fixEnc d) = true) : False := by
  unfold fixEnc at h
  split_ifs at h with h1 h2 h3 h4 h5 h6
  · subst h1; exact absurd hd (by decide)
  · exact absurd h (by decide)
  · exact absurd h (by decide)
  · exact absurd h (by decide)
  · exact absurd h (by decide)
  · exact absurd h (by decide)
  · rw [hd] at h; cases h

theorem fixEnc_eq_self {d : Char} (hall : allowedChar d = true)
    (hsp : isPySpace d = true → d = ' ') : fixEnc d = d := by
  have h1 : d ≠ ' ' := by
    rintro rfl
    exact absurd (hsp (by decide)) (by decide)
  have h2 : d ≠ '’' := by rintro rfl; exact absurd hall (by decide)
  have h3 : d ≠ '“' := by rintro rfl; exact absurd hall (by decide)
  have h4 : d ≠ '”' := by rintro rfl; exact absurd hall (by decide)
  have h5 : d ≠ '–' := by rintro rfl; exact absurd hall (by decide)
  have h6 : d ≠ '—' := by rintro rfl; exact absurd hall (by decide)
  simp [fixEnc, h1, h2, h3, h4, h5, h6]

theorem cleanCore_mem {l : List Char} {c : Char} (h : c ∈ cleanCore l) :
    allowedChar c = true ∧ (isPySpace c = true → c = ' ') := by
  unfold cleanCore at h
  have h2 := mem_of_mem_stripChars h
  rw [List.mem_filter] at h2
  obtain ⟨hmem, hall⟩ := h2
  rw [List.mem_map] at hmem
  obtain ⟨d, hd, rfl⟩ := hmem
  refine ⟨hall, fun hs => ?_⟩
  rcases mem_collapseWsAux hd with h1 | ⟨_, hns⟩
  · subst h1; rfl
  · exact (fixEnc_space hns hs).elim

theorem cleanCore_shape (l : List Char) : CleanShape (cleanCore l) :=
  ⟨fun _ hc => (cleanCore_mem hc).1, fun _ hc => (cleanCore_mem hc).2⟩

theorem shape_stripCollapse {t : List Char} (h : CleanShape t) :
    CleanShape (stripChars (collapseWs t)) := by
  constructor <;> intro c hc <;>
    rcases mem_collapseWsAux (mem_of_mem_stripChars hc) with h1 | ⟨hm, hns⟩
  · subst h1; decide
  · exact h.1 c hm
  · subst h1; intro _; rfl
  · intro hsp; rw [hsp] at hns; cases hns

theorem cleanCore_of_shape {t : List Char} (h : CleanShape t) :
    cleanCore t = stripChars (collapseWs (stripChars t)) := by
  unfold cleanCore
  have hshape : ∀ c ∈ collapseWs (stripChars t),
      allowedChar c = true ∧ (isPySpace c = true → c = ' ') := by
    intro c hc
    rcases mem_collapseWsAux hc with h1 | ⟨hm, _⟩
    · subst h1; exact ⟨by decide, fun _ => rfl⟩
    · have hm' := mem_of_mem_stripChars hm
      exact ⟨h.1 c hm', h.2 c hm'⟩
  have hmap : (collapseWs (stripChars t)).map fixEnc = collapseWs (stripChars t) := by
    have := List.map_congr_left
      (fun c hc => fixEnc_eq_self (hshape c hc).1 (hshape c hc).2)
    simpa using this
  rw [hmap, List.filter_eq_self.mpr (fun c hc => (hshape c hc).1)]

theorem cleanCore_two_fixed (l : List Char) :
    cleanCore (cleanCore (cleanCore l)) = cleanCore (cleanCore l) := by
  have hshape_t : CleanShape (cleanCore l) := cleanCore_shape l
  have hstript : stripChars (cleanCore l) = cleanCore l := by
    show stripChars (stripChars _) = stripChars _
    exact stripChars_idem _
  have h2 : cleanCore (cleanCore l) = stripChars (collapseWs (cleanCore l)) := by
    rw [cleanCore_of_shape hshape_t, hstript]
  have hshape_u : CleanShape (stripChars (collapseWs (cleanCore l))) :=
    shape_stripCollapse hshape_t
  have hstripu : stripChars (stripChars (collapseWs (cleanCore l)))
      = stripChars (collapseWs (cleanCore l)) := stripChars_idem _
  have hchain : NoTwoSpaces (stripChars (collapseWs (cleanCore l))) :=
    List.Chain'.infix (collapseWsAux_chain false (cleanCore l)) (stripChars_infixOf _)
  have hcollu : collapseWs (stripChars (collapseWs (cleanCore l)))
      = stripChars (collapseWs (cleanCore l)) :=
    (collapseWsAux_eq_self hshape_u.2 hchain).1
  have h3 : cleanCore (stripChars (collapseWs (cleanCore l)))
      = stripChars (collapseWs (cleanCore l)) := by
    rw [cleanCore_of_shape hshape_u, hstripu, hcollu, hstripu]
  rw [h2, h3]

theorem cleanText_eq_core (s : String) : cleanText s = String.mk (cleanCore s.toList) := by
  by_cases hs : s = ""
  · subst hs; decide
  · simp [cleanText, clean_text_field, pyFalsy, pyStr, hs]

theorem cleanText_mk_core (l : List Char) :
    cleanText (String.mk l) = String.mk (cleanCore l) := by
  rw [cleanText_eq_core]; rfl

/-- C2 (counterexample): `cleanText` is not idempotent — removing a
disallowed character can merge two whitespace gaps into a run that the
single pass has already collapsed, so the output still contains a
whitespace run. -/
theorem clean_text_not_idempotent_cex :
    cleanText "a ! b" = "a  b" ∧ cleanText "a  b" = "a b" ∧
      cleanText (cleanText "a ! b") ≠ cleanText "a ! b" := by
  refine ⟨by decide, by decide, ?_⟩
  decide

/-- C2 (amended): applying `cleanText` twice reaches a fixed point — for
every raw text `t`, `cleanText (cleanText (cleanText t)) =
cleanText (cleanText t)`. -/
theorem clean_text_twice_idempotent (s : String) :
    cleanText (cleanText (cleanText s)) = cleanText (cleanText s) := by
  calc cleanText (cleanText (cleanText s))
      = cleanText (cleanText (String.mk (cleanCore s.toList))) := by
        rw [cleanText_eq_core s]
    _ = cleanText (String.mk (cleanCore (cleanCore s.toList))) := by
        rw [cleanText_mk_core (cleanCore s.toList)]
    _ = String.mk (cleanCore (cleanCore (cleanCore s.toList))) := by
        rw [cleanText_mk_core]
    _ = String.mk (cleanCore (cleanCore s.toList)) := by
        rw [cleanCore_two_fixed]
    _ = cleanText (cleanText s) := by
        rw [cleanText_eq_core s, cleanText_mk_core]

/-! ### Numeric field cleaners (C3, helpers for C6) -/

theorem clean_nfq_level_mem (v : Value) : clean_nfq_level v ∈ validNfqLevels := by
  unfold clean_nfq_level
  split
  · decide
  · split
    · decide
    · split
      · next hn => simpa using hn
      · decide

theorem clean_points_range (v : Value) : 0 ≤ clean_points v ∧ clean_points v ≤ 625 := by
  unfold clean_points
  split
  · decide
  · split
    · decide
    · split
      · next h => exact h
      · decide

/-- C3: for every input value, whatever its type, `clean_nfq_level`
returns a member of the valid NFQ set {5,6,7,8,9,10} and `clean_points`
returns an integer in [0, 625]. -/
theorem clean_nfq_and_points_range (v : Value) :
    clean_nfq_level v ∈ validNfqLevels ∧ 0 ≤ clean_points v ∧ clean_points v ≤ 625 :=
  ⟨clean_nfq_level_mem v, clean_points_range v⟩

/-! ### The CAO-code scanner (C4) -/

theorem tryNM_sound {n m : Nat} {l r : List Char} (h : tryNM n m l = some r) :
    ∃ a b, r = a ++ b ∧ a.length = n ∧ a.all isUpperAZ = true ∧
      b.length = m ∧ b.all isDigitC = true ∧ (a ++ b) <+: l := by
  unfold tryNM at h
  dsimp only at h
  split at h
  · next hcond =>
    obtain ⟨h1, h2, h3, h4⟩ := hcond
    have h5 := Option.some.inj h
    refine ⟨l.take n, (l.drop n).take m, h5.symm, h1, h2, h3, h4, ?_⟩
    rw [← List.take_add]
    exact List.take_prefix _ _
  · cases h

theorem tryPairs_sound {ps : List (Nat × Nat)} {l r : List Char}
    (h : tryPairs ps l = some r) : ∃ n m, (n, m) ∈ ps ∧ tryNM n m l = some r := by
  induction ps with
  | nil => cases h
  | cons nm ps ih =>
    obtain ⟨n, m⟩ := nm
    unfold tryPairs at h
    cases ht : tryNM n m l with
    | some r' =>
      rw [ht] at h
      exact ⟨n, m, List.mem_cons_self _ _, ht.trans h⟩
    | none =>
      rw [ht] at h
      obtain ⟨n', m', hmem, htry⟩ := ih h
      exact ⟨n', m', List.mem_cons_of_mem _ hmem, htry⟩

theorem searchCao_sound {l r : List Char} (h : searchCao l = some r) :
    ∃ l', l' <:+ l ∧ tryPairs caoPairs l' = some r := by
  induction l with
  | nil => cases h
  | cons c cs ih =>
    unfold searchCao at h
    cases ht : tryPairs caoPairs (c :: cs) with
    | some r' =>
      rw [ht] at h
      exact ⟨c :: cs, List.suffix_refl _, ht.trans h⟩
    | none =>
      rw [ht] at h
      obtain ⟨l', hs, hp⟩ := ih h
      exact ⟨l', hs.trans (List.suffix_cons c cs), hp⟩

theorem caoPairs_bounds : ∀ p ∈ caoPairs, 2 ≤ p.1 ∧ p.1 ≤ 4 ∧ 3 ≤ p.2 ∧ p.2 ≤ 4 := by
  decide

theorem searchCao_form {l r : List Char} (h : searchCao l = some r) :
    ∃ a b, r = a ++ b ∧ 2 ≤ a.length ∧ a.length ≤ 4 ∧ a.all isUpperAZ = true ∧
      3 ≤ b.length ∧ b.length ≤ 4 ∧ b.all isDigitC = true ∧ r <:+: l := by
  obtain ⟨l', hs, hp⟩ := searchCao_sound h
  obtain ⟨n, m, hmem, htry⟩ := tryPairs_sound hp
  obtain ⟨a, b, rfl, h1, h2, h3, h4, hpre⟩ := tryNM_sound htry
  obtain ⟨hb1, hb2, hb3, hb4⟩ := caoPairs_bounds (n, m) hmem
  exact ⟨a, b, rfl, h1 ▸ hb1, h1 ▸ hb2, h2, h3 ▸ hb3, h3 ▸ hb4, h4,
    hpre.isInfix.trans hs.isInfix⟩

theorem mem_caoPairs {n m : Nat} (h2 : 2 ≤ n) (h4 : n ≤ 4) (h3 : 3 ≤ m) (h5 : m ≤ 4) :
    (n, m) ∈ caoPairs := by
  interval_cases n <;> interval_cases m <;> decide

theorem tryNM_at_head {a b q : List Char} (ha : a.all isUpperAZ = true)
    (hb : b.all isDigitC = true) :
    tryNM a.length b.length (a ++ b ++ q) = some (a ++ b) := by
  have h1 : (a ++ b ++ q).take a.length = a := by
    rw [List.append_assoc]; exact List.take_left a (b ++ q)
  have h2 : (a ++ b ++ q).drop a.length = b ++ q := by
    rw [List.append_assoc]; exact List.drop_left a (b ++ q)
  unfold tryNM
  rw [if_pos]
  · rw [h1, h2, List.take_left]
  · refine ⟨by rw [h1], by rw [h1]; exact ha, ?_, ?_⟩
    · rw [h2, List.take_left]
    · rw [h2, List.take_left]; exact hb

theorem tryPairs_isSome {ps : List (Nat × Nat)} {l r : List Char} {n m : Nat}
    (hmem : (n, m) ∈ ps) (h : tryNM n m l = some r) : (tryPairs ps l).isSome = true := by
  induction ps with
  | nil => cases hmem
  | cons nm ps ih =>
    obtain ⟨n', m'⟩ := nm
    unfold tryPairs
    cases ht : tryNM n' m' l with
    | some r' => rfl
    | none =>
      rcases List.mem_cons.mp hmem with heq | hmem'
      · injection heq with h1 h2
        subst h1; subst h2
        simp [h] at ht
      · exact ih hmem'

theorem searchCao_complete {l : List Char} (h : HasCaoSub l) :
    (searchCao l).isSome = true := by
  obtain ⟨p, a, b, q, rfl, h2a, h4a, ha, h3b, h4b, hb⟩ := h
  induction p with
  | nil =>
    have htry := tryNM_at_head (q := q) ha hb
    have hmem := mem_caoPairs h2a h4a h3b h4b
    have hpairs := tryPairs_isSome hmem htry
    obtain ⟨r, hr⟩ := Option.isSome_iff_exists.mp hpairs
    obtain ⟨x, a', rfl⟩ : ∃ x a', a = x :: a' := by
      cases a with
      | nil => simp at h2a
      | cons x a' => exact ⟨x, a', rfl⟩
    rw [List.nil_append]
    have : searchCao (x :: a' ++ b ++ q) =
        match tryPairs caoPairs (x :: a' ++ b ++ q) with
        | some r => some r
        | none => searchCao (a' ++ b ++ q) := rfl
    rw [this]
    rw [show (x :: a' ++ b ++ q) = ((x :: a') ++ b ++ q) from rfl] at hr ⊢
    rw [hr]
    rfl
  | cons c p' ih =>
    have : searchCao ((c :: p') ++ a ++ b ++ q) =
        match tryPairs caoPairs ((c :: p') ++ a ++ b ++ q) with
        | some r => some r
        | none => searchCao (p' ++ a ++ b ++ q) := rfl
    rw [this]
    cases ht : tryPairs caoPairs ((c :: p') ++ a ++ b ++ q) with
    | some r => rfl
    | none => exact ih

/-- C4: on every input whose uppercased, stripped text contains a
2-4-letter run immediately followed by a 3-4-digit run,
`standardize_cao_code` returns such a letters+digits substring of that
text, concatenated with no separator; in particular on
`"code: ab123 "` it returns `"AB123"`. -/
theorem standardize_cao_code_pattern :
    (∀ s : String, HasCaoSub (upperStrip s) →
      ∃ a b, standardize_cao_code (VStr s) = String.mk (a ++ b) ∧
        2 ≤ a.length ∧ a.length ≤ 4 ∧ a.all isUpperAZ = true ∧
        3 ≤ b.length ∧ b.length ≤ 4 ∧ b.all isDigitC = true ∧
        (a ++ b) <:+: upperStrip s) ∧
    standardize_cao_code (VStr "code: ab123 ") = "AB123" := by
  constructor
  · intro s hsub
    have hs : ¬ s = "" := by
      rintro rfl
      obtain ⟨p, a, b, q, hl, h2a, _⟩ := hsub
      have hlen := congrArg List.length hl
      simp [upperStrip, stripChars, dropTrailingSpace] at hlen
      omega
    have hsome := searchCao_complete hsub
    obtain ⟨r, hr⟩ := Option.isSome_iff_exists.mp hsome
    obtain ⟨a, b, rfl, ha1, ha2, ha3, hb1, hb2, hb3, hinf⟩ := searchCao_form hr
    refine ⟨a, b, ?_, ha1, ha2, ha3, hb1, hb2, hb3, hinf⟩
    have hr' : searchCao ((stripChars s.toList).map Char.toUpper) = some (a ++ b) := hr
    have hfalse : pyFalsy (VStr s) = false := by simp [pyFalsy, hs]
    unfold standardize_cao_code
    rw [hfalse]
    simp only [Bool.false_eq_true, if_false, pyStr]
    rw [hr']
  · decide

/-- C4 witness: the pattern theorem applied at the concrete input
`"code: ab123 "`. -/
theorem standardize_cao_code_pattern_witness :
    HasCaoSub (upperStrip "code: ab123 ") ∧
      (∃ a b, standardize_cao_code (VStr "code: ab123 ") = String.mk (a ++ b) ∧
        2 ≤ a.length ∧ a.length ≤ 4 ∧ a.all isUpperAZ = true ∧
        3 ≤ b.length ∧ b.length ≤ 4 ∧ b.all isDigitC = true ∧
        (a ++ b) <:+: upperStrip "code: ab123 ") := by
  have hsub : HasCaoSub (upperStrip "code: ab123 ") :=
    ⟨"CODE: ".toList, "AB".toList, "123".toList, [], by decide, by decide, by decide,
      by decide, by decide, by decide, by decide⟩
  exact ⟨hsub, standardize_cao_code_pattern.1 _ hsub⟩

/-! ### Deduplication (C5, C9) -/

theorem removeDupAux_cons_new {seen : List String} {c : Record} {cs : List Record}
    (h : dedupKey c ≠ "" ∧ dedupKey c ∉ seen) :
    removeDupAux seen (c :: cs) =
      (c :: (removeDupAux (dedupKey c :: seen) cs).1,
        (removeDupAux (dedupKey c :: seen) cs).2) := by
  rw [removeDupAux, if_pos h]

theorem removeDupAux_cons_dup {seen : List String} {c : Record} {cs : List Record}
    (h : ¬(dedupKey c ≠ "" ∧ dedupKey c ∉ seen)) :
    removeDupAux seen (c :: cs) =
      ((removeDupAux seen cs).1, (removeDupAux seen cs).2 + 1) := by
  rw [removeDupAux, if_neg h]

theorem removeDupAux_sublist (seen : List String) (l : List Record) :
    (removeDupAux seen l).1.Sublist l := by
  induction l generalizing seen with
  | nil => simp [removeDupAux]
  | cons c cs ih =>
    by_cases h : dedupKey c ≠ "" ∧ dedupKey c ∉ seen
    · rw [removeDupAux_cons_new h]
      exact (ih _).cons₂ c
    · rw [removeDupAux_cons_dup h]
      exact (ih seen).cons c

theorem removeDupAux_key_ne {seen : List String} {l : List Record} {x : Record}
    (h : x ∈ (removeDupAux seen l).1) : dedupKey x ≠ "" := by
  induction l generalizing seen with
  | nil => simp [removeDupAux] at h
  | cons c cs ih =>
    by_cases hc : dedupKey c ≠ "" ∧ dedupKey c ∉ seen
    · rw [removeDupAux_cons_new hc] at h
      rcases List.mem_cons.mp h with rfl | hmem
      · exact hc.1
      · exact ih hmem
    · rw [removeDupAux_cons_dup hc] at h
      exact ih h

theorem removeDupAux_filter {l : List Record} {seen : List String} {k : String}
    (hk : k ≠ "") :
    if k ∈ seen then
      (removeDupAux seen l).1.filter (fun r => dedupKey r == k) = []
    else
      (removeDupAux seen l).1.filter (fun r => dedupKey r == k)
        = (l.find? (fun r => dedupKey r == k)).toList := by
  induction l generalizing seen with
  | nil => split <;> simp [removeDupAux]
  | cons c cs ih =>
    by_cases hc : dedupKey c ≠ "" ∧ dedupKey c ∉ seen
    · rw [removeDupAux_cons_new hc]
      by_cases hks : k ∈ seen
      · rw [if_pos hks]
        have hck : (dedupKey c == k) = false := by
          apply beq_eq_false_iff_ne.mpr
          intro heq
          exact hc.2 (heq ▸ hks)
        rw [List.filter_cons, hck]
        have := @ih (dedupKey c :: seen)
        rw [if_pos (List.mem_cons_of_mem _ hks)] at this
        simpa using this
      · rw [if_neg hks]
        by_cases hck : dedupKey c = k
        · have hbeq : (dedupKey c == k) = true := beq_iff_eq.mpr hck
          rw [List.filter_cons, hbeq]
          have := @ih (dedupKey c :: seen)
          rw [if_pos (by rw [← hck]; exact List.mem_cons_self _ _)] at this
          rw [List.find?_cons_of_pos (p := fun r => dedupKey r == k) _ hbeq]
          simpa using this
        · have hbeq : (dedupKey c == k) = false := beq_eq_false_iff_ne.mpr hck
          rw [List.filter_cons, hbeq,
            List.find?_cons_of_neg (p := fun r => dedupKey r == k) _ (by simp [hbeq])]
          have := @ih (dedupKey c :: seen)
          rw [if_neg (by
            intro hmem
            rcases List.mem_cons.mp hmem with h1 | h2
            · exact hck h1.symm
            · exact hks h2)] at this
          simpa using this
    · rw [removeDupAux_cons_dup hc]
      by_cases hks : k ∈ seen
      · rw [if_pos hks]
        have := @ih seen
        rw [if_pos hks] at this
        exact this
      · rw [if_neg hks]
        have hck : dedupKey c ≠ k := by
          intro heq
          exact hc ⟨heq ▸ hk, heq ▸ hks⟩
        have hbeq : (dedupKey c == k) = false := beq_eq_false_iff_ne.mpr hck
        rw [List.find?_cons_of_neg (p := fun r => dedupKey r == k) _ (by simp [hbeq])]
        have := @ih seen
        rw [if_neg hks] at this
        exact this

theorem find?_eq_head_filter (p : Record → Bool) (l : List Record) :
    l.find? p = (l.filter p).head? := by
  induction l with
  | nil => rfl
  | cons a t ih =>
    by_cases hp : p a = true
    · rw [List.find?_cons_of_pos _ hp, List.filter_cons, hp]
      rfl
    · have hp' : p a = false := by simpa using hp
      rw [List.find?_cons_of_neg _ hp, List.filter_cons, hp', ih]
      rfl

/-- C5 (counterexample): two records with the same dedup key, both keys
empty; the output of `remove_duplicates` contains zero records with that
key — not exactly one — because empty keys are dropped outright. -/
theorem remove_duplicates_empty_key_cex :
    dedupKey ({ name := some (VStr "") } : Record) = "" ∧
      remove_duplicates
        [({ name := some (VStr "") } : Record), { name := some (VStr "") }] = ([], 2) ∧
      ¬(((remove_duplicates
        [({ name := some (VStr "") } : Record), { name := some (VStr "") }]).1.filter
          (fun r => dedupKey r == dedupKey ({ name := some (VStr "") } : Record))).length
        = 1) := by
  refine ⟨by decide, by decide, by decide⟩

/-- C5 (amended): for every input list and every non-empty dedup key
occurring in it, the output of `remove_duplicates` contains exactly one
record with that key, namely the first record of the input with that
key, and the output preserves first-seen input order (it is a sublist of
the input). -/
theorem remove_duplicates_first_wins (l : List Record) (k : String) (hk : k ≠ "")
    (hex : ∃ r ∈ l, dedupKey r = k) :
    ((remove_duplicates l).1.filter (fun r => dedupKey r == k)).length = 1 ∧
      (remove_duplicates l).1.find? (fun r => dedupKey r == k)
        = l.find? (fun r => dedupKey r == k) ∧
      (remove_duplicates l).1.Sublist l := by
  have hfilter := @removeDupAux_filter l [] k hk
  rw [if_neg (List.not_mem_nil k)] at hfilter
  have hsome : (l.find? (fun r => dedupKey r == k)).isSome = true := by
    rw [List.find?_isSome]
    obtain ⟨r, hr, hkr⟩ := hex
    exact ⟨r, hr, beq_iff_eq.mpr hkr⟩
  obtain ⟨r, hr⟩ := Option.isSome_iff_exists.mp hsome
  refine ⟨?_, ?_, removeDupAux_sublist _ _⟩
  · rw [show remove_duplicates l = removeDupAux [] l from rfl, hfilter, hr]
    rfl
  · rw [find?_eq_head_filter,
      show remove_duplicates l = removeDupAux [] l from rfl, hfilter, hr]
    rfl

/-- C5 witness: two records sharing the non-empty key `"maths|AB123"`;
the first one survives, in place. -/
theorem remove_duplicates_first_wins_witness :
    (("maths|AB123" : String) ≠ "" ∧
      ∃ r ∈ [({ name := some (VStr "Maths"), cao_code := some (VStr "AB123"),
                nfq_level := some (VInt 8) } : Record),
             { name := some (VStr "MATHS "), cao_code := some (VStr "AB123"),
               description := some (VStr "dup") }], dedupKey r = "maths|AB123") ∧
    (((remove_duplicates
        [({ name := some (VStr "Maths"), cao_code := some (VStr "AB123"),
            nfq_level := some (VInt 8) } : Record),
         { name := some (VStr "MATHS "), cao_code := some (VStr "AB123"),
           description := some (VStr "dup") }]).1.filter
        (fun r => dedupKey r == "maths|AB123")).length = 1 ∧
      (remove_duplicates
        [({ name := some (VStr "Maths"), cao_code := some (VStr "AB123"),
            nfq_level := some (VInt 8) } : Record),
         { name := some (VStr "MATHS "), cao_code := some (VStr "AB123"),
           description := some (VStr "dup") }]).1.find?
          (fun r => dedupKey r == "maths|AB123")
        = (List.find? (fun r => dedupKey r == "maths|AB123")
            [({ name := some (VStr "Maths"), cao_code := some (VStr "AB123"),
                nfq_level := some (VInt 8) } : Record),
             { name := some (VStr "MATHS "), cao_code := some (VStr "AB123"),
               description := some (VStr "dup") }]) ∧
      (remove_duplicates
        [({ name := some (VStr "Maths"), cao_code := some (VStr "AB123"),
            nfq_level := some (VInt 8) } : Record),
         { name := some (VStr "MATHS "), cao_code := some (VStr "AB123"),
           description := some (VStr "dup") }]).1.Sublist
        [({ name := some (VStr "Maths"), cao_code := some (VStr "AB123"),
            nfq_level := some (VInt 8) } : Record),
         { name := some (VStr "MATHS "), cao_code := some (VStr "AB123"),
           description := some (VStr "dup") }]) := by
  refine ⟨⟨by decide, ?_⟩, remove_duplicates_first_wins _ _ (by decide) ?_⟩ <;>
    exact ⟨{ name := some (VStr "Maths"), cao_code := some (VStr "AB123"),
             nfq_level := some (VInt 8) }, by decide, by decide⟩

/-- C9: a record whose dedup key is empty (name lowercases and strips to
`""`, CAO code empty) is dropped and counted as a duplicate even on its
first occurrence, and no record with an empty dedup key ever appears in
the output of `remove_duplicates`. -/
theorem remove_duplicates_drops_empty_key (r : Record) (l : List Record)
    (h : dedupKey r = "") :
    remove_duplicates (r :: l)
        = ((remove_duplicates l).1, (remove_duplicates l).2 + 1) ∧
      (∀ x ∈ (remove_duplicates (r :: l)).1, dedupKey x ≠ "") ∧
      (∀ l' : List Record, ∀ x ∈ (remove_duplicates l').1, dedupKey x ≠ "") := by
  refine ⟨?_, fun x hx => removeDupAux_key_ne hx,
    fun l' x hx => removeDupAux_key_ne hx⟩
  show removeDupAux [] (r :: l) = _
  rw [removeDupAux_cons_dup (by simp [h])]
  rfl

/-- C9 witness: the theorem applied to a record with an all-whitespace
name and no CAO code. -/
theorem remove_duplicates_drops_empty_key_witness :
    dedupKey ({ name := some (VStr "  ") } : Record) = "" ∧
      (remove_duplicates [({ name := some (VStr "  ") } : Record),
          { name := some (VStr "Maths"), nfq_level := some (VInt 8) }]
        = ((remove_duplicates
              [({ name := some (VStr "Maths"), nfq_level := some (VInt 8) } : Record)]).1,
            (remove_duplicates
              [({ name := some (VStr "Maths"), nfq_level := some (VInt 8) } : Record)]).2
              + 1)) := by
  have h : dedupKey ({ name := some (VStr "  ") } : Record) = "" := by decide
  exact ⟨h, (remove_duplicates_drops_empty_key _
    [{ name := some (VStr "Maths"), nfq_level := some (VInt 8) }] h).1⟩

/-! ### Validation (C6, C7, C10) -/

/-- C6 (counterexample): a raw record without the `nfq_level` key is
unchanged by cleaning, and the validator's NFQ-set check then fails on
it (`None` is not in the valid set), so the check is not always
satisfied after cleaning. -/
theorem nfq_rule_after_clean_cex :
    nfqErrors (clean_single_course ({} : Record)) = ["Invalid NFQ level: None"] ∧
      nfqErrors (clean_single_course ({} : Record)) ≠ [] := by
  exact ⟨by decide, by decide⟩

/-- C6 (amended): for every raw record that has an `nfq_level` key, the
validator's rule that `nfq_level` lie in the valid enumerated set
{5,6,7,8,9,10} is satisfied after `clean_single_course` — that check
contributes no error. -/
theorem nfq_rule_after_clean (r : Record) (h : r.nfq_level.isSome = true) :
    nfqErrors (clean_single_course r) = [] := by
  obtain ⟨v, hv⟩ := Option.isSome_iff_exists.mp h
  have hlvl : (clean_single_course r).nfq_level = some (VInt (clean_nfq_level v)) := by
    simp [clean_single_course, hv]
  unfold nfqErrors
  rw [hlvl]
  have hmem : validNfqLevels.contains (clean_nfq_level v) = true := by
    have := clean_nfq_level_mem v
    simpa using this
  have : valueInNfqLevels (VInt (clean_nfq_level v)) = true := by
    simpa [valueInNfqLevels] using hmem
  simp [this]

/-- C6 witness: the amended theorem applied to a record whose NFQ value
is an unparseable string. -/
theorem nfq_rule_after_clean_witness :
    (({ nfq_level := some (VStr "banana") } : Record).nfq_level.isSome = true) ∧
      nfqErrors (clean_single_course { nfq_level := some (VStr "banana") }) = [] :=
  ⟨by decide, nfq_rule_after_clean _ (by decide)⟩

theorem course_errors_deny_ne {r : Record} (h : containsDenylisted (getStr r.name) = true) :
    course_errors r ≠ [] := by
  have hne : getStr r.name ≠ "" := by
    intro h0
    rw [h0] at h
    exact absurd h (by decide)
  unfold course_errors
  dsimp only
  intro hc
  rw [List.append_eq_nil, List.append_eq_nil, List.append_eq_nil, List.append_eq_nil] at hc
  have hdeny := hc.1.2
  rw [if_pos ⟨hne, h⟩] at hdeny
  cases hdeny

theorem validate_course_false_of_deny (st : Stats) (r : Record)
    (h : containsDenylisted (getStr r.name) = true) : (validate_course st r).1 = false := by
  have hne := course_errors_deny_ne h
  unfold validate_course
  dsimp only
  split
  · next hemp =>
    exact absurd (by simpa using hemp) hne
  · rfl

theorem validateAll_no_deny {st : Stats} {l : List Record} {r : Record}
    (h : r ∈ (validateAll st l).1) : containsDenylisted (getStr r.name) = false := by
  induction l generalizing st with
  | nil => simp [validateAll] at h
  | cons c cs ih =>
    unfold validateAll at h
    dsimp only at h
    by_cases hv : (validate_course st c).1 = true
    · rw [if_pos hv] at h
      rcases List.mem_cons.mp h with rfl | hmem
      · by_contra hden
        have hden' : containsDenylisted (getStr r.name) = true := by simpa using hden
        rw [validate_course_false_of_deny st r hden'] at hv
        cases hv
      · exact ih hmem
    · rw [if_neg hv] at h
      exact ih h

/-- C7: a record whose name contains (case-insensitively) any denylist
substring — e.g. a record named "Contact Us" — always fails
`validate_course`, whatever its other fields, and no such record appears
in the validated output sequence. -/
theorem denylisted_never_validates :
    (∀ (st : Stats) (r : Record), containsDenylisted (getStr r.name) = true →
      (validate_course st r).1 = false) ∧
    (∀ (st : Stats) (l : List Record) (r : Record), r ∈ (validateAll st l).1 →
      containsDenylisted (getStr r.name) = false) :=
  ⟨validate_course_false_of_deny, fun _ _ _ h => validateAll_no_deny h⟩

/-- C7 witness: a well-formed record named "Contact Us" is rejected; a
well-formed record named "Mathematics" passes and is not denylisted. -/
theorem denylisted_never_validates_witness :
    containsDenylisted
        (getStr ({ name := some (VStr "Contact Us"), nfq_level := some (VInt 8) } :
          Record).name) = true ∧
      (validate_course {}
        { name := some (VStr "Contact Us"), nfq_level := some (VInt 8) }).1 = false ∧
      (({ name := some (VStr "Mathematics"), nfq_level := some (VInt 8) } : Record)
        ∈ (validateAll {}
            [{ name := some (VStr "Mathematics"), nfq_level := some (VInt 8) }]).1) ∧
      containsDenylisted
        (getStr ({ name := some (VStr "Mathematics"), nfq_level := some (VInt 8) } :
          Record).name) = false := by
  have hm : ({ name := some (VStr "Mathematics"), nfq_level := some (VInt 8) } : Record)
      ∈ (validateAll {}
          [{ name := some (VStr "Mathematics"), nfq_level := some (VInt 8) }]).1 := by
    decide
  exact ⟨by decide, denylisted_never_validates.1 {} _ (by decide), hm,
    denylisted_never_validates.2 {} _ _ hm⟩

theorem lookup_setKey (m : List (String × List String)) (k : String) (v : List String) :
    List.lookup k (setKey m k v) = some v := by
  induction m with
  | nil => simp [setKey, List.lookup]
  | cons p rest ih =>
    obtain ⟨k', v'⟩ := p
    unfold setKey
    by_cases hk : k' = k
    · rw [if_pos hk]
      subst hk
      simp [List.lookup]
    · rw [if_neg hk]
      have hbeq : (k == k') = false := beq_eq_false_iff_ne.mpr (Ne.symm hk)
      simp [List.lookup, hbeq, ih]

/-- C10: rejection reasons are stored under the first 50 characters of
the record's name; when two failing records share that truncated name,
the second record's error list replaces the first's in the statistics. -/
theorem rejection_reasons_last_wins (st : Stats) (r1 r2 : Record)
    (h1 : course_errors r1 ≠ []) (h2 : course_errors r2 ≠ [])
    (h3 : truncName r1 = truncName r2) :
    List.lookup (truncName r1)
        ((validate_course (validate_course st r1).2 r2).2.validation_errors)
      = some (course_errors r2) := by
  unfold validate_course
  dsimp only
  rw [if_neg (by simpa using h2), if_neg (by simpa using h1)]
  dsimp only
  rw [h3]
  exact lookup_setKey _ _ _

/-- C10 witness: two distinct failing records with the same name; after
both are validated the statistics hold only the second record's
reasons. -/
theorem rejection_reasons_last_wins_witness :
    course_errors ({ name := some (VStr "Duplicate Course Name") } : Record) ≠ [] ∧
      course_errors
        ({ name := some (VStr "Duplicate Course Name"),
           nfq_level := some (VInt 3) } : Record) ≠ [] ∧
      truncName ({ name := some (VStr "Duplicate Course Name") } : Record)
        = truncName
            ({ name := some (VStr "Duplicate Course Name"),
               nfq_level := some (VInt 3) } : Record) ∧
      List.lookup (truncName ({ name := some (VStr "Duplicate Course Name") } : Record))
          ((validate_course
            (validate_course {} { name := some (VStr "Duplicate Course Name") }).2
            { name := some (VStr "Duplicate Course Name"),
              nfq_level := some (VInt 3) }).2.validation_errors)
        = some (course_errors
            ({ name := some (VStr "Duplicate Course Name"),
               nfq_level := some (VInt 3) } : Record)) := by
  exact ⟨by decide, by decide, by decide,
    rejection_reasons_last_wins {} _ _ (by decide) (by decide) (by decide)⟩

/-! ### Enrichment (C8) -/

/-- C8: `improve_tags` returns `"General"` exactly when the lowercased
name-plus-description matches none of the five category keyword lists;
otherwise it returns the alphabetically sorted, comma-joined names of
the matching categories. -/
theorem improve_tags_matches_categories (c : Record) :
    improve_tags c = if matchedCategories c = [] then "General"
      else String.intercalate ", " (matchedCategories c) := by
  unfold improve_tags matchedCategories categoriesTable
  dsimp only
  cases h1 : anyKeyword stemKeywords (tagContent c) <;>
    cases h2 : anyKeyword businessKeywords (tagContent c) <;>
      cases h3 : anyKeyword artsKeywords (tagContent c) <;>
        cases h4 : anyKeyword healthKeywords (tagContent c) <;>
          cases h5 : anyKeyword educationKeywords (tagContent c) <;>
            simp only [h1, h2, h3, h4, h5, List.filter_cons, List.filter_nil,
              if_true, if_false, Bool.false_eq_true, List.append_nil, List.nil_append] <;>
            decide

/-! ### The pipeline (C1) -/

theorem validate_course_total (st : Stats) (c : Record) :
    ((validate_course st c).2).total_records = st.total_records := by
  unfold validate_course
  dsimp only
  split <;> rfl

theorem validateAll_total (st : Stats) (l : List Record) :
    ((validateAll st l).2).total_records = st.total_records := by
  induction l generalizing st with
  | nil => rfl
  | cons c cs ih =>
    unfold validateAll
    dsimp only
    rw [ih]
    exact validate_course_total st c

/-- C1: the pipeline is NOT total — on the empty batch the statistics
logger divides `valid_records` by `total_records = 0` and raises
`ZeroDivisionError`; on every non-empty batch it completes with a
result. -/
theorem clean_course_data_empty_batch :
    clean_course_data [] = Except.error "ZeroDivisionError: division by zero" ∧
      ∀ courses : List Record, courses ≠ [] →
        ∃ res, clean_course_data courses = Except.ok res := by
  constructor
  · rfl
  · intro courses h
    have hlen : courses.length ≠ 0 := fun h0 => h (List.length_eq_zero.mp h0)
    unfold clean_course_data
    dsimp only
    split
    · next e heq =>
      exfalso
      unfold log_validation_stats at heq
      split at heq
      · next hcond =>
        dsimp only at hcond
        rw [validateAll_total] at hcond
        exact hlen hcond
      · cases heq
    · next val heq => exact ⟨_, rfl⟩

/-- C1 witness: a one-record batch completes with a result. -/
theorem clean_course_data_empty_batch_witness :
    ([({ name := some (VStr "Maths"), nfq_level := some (VInt 8) } : Record)]
        ≠ ([] : List Record)) ∧
      ∃ res, clean_course_data
          [({ name := some (VStr "Maths"), nfq_level := some (VInt 8) } : Record)]
        = Except.ok res :=
  ⟨by decide, clean_course_data_empty_batch.2 _ (by decide)⟩

end CourseCleaner
